import Mathlib

/-!
Shallow embedding of the row-store mutation core (src/btree/row_modify.c)
and of the format test driver (test/format/ops.c), with theorems checking
the natural-language specification against the code.

Version chains are embedded as Lean lists of update records (head first,
exactly the order in which a reader walks the chain); the single CAS the
obsolete collector performs is driven by a boolean oracle standing for
"no racing pruner changed the pointer in between".
-/

namespace WT

/-- Outcome codes surfaced by the mutation core: WT_RESTART, WT_ROLLBACK
(write conflict) and allocation failure (ENOMEM etc.). -/
inductive WtRet where
  | restart
  | conflict
  | allocFail
deriving DecidableEq, Repr

/-- A WT_UPDATE record. id models the node's address, txnid the transaction
id, deleted the WT_UPDATE_DELETED flag and size the payload byte count (the
payload bytes themselves never matter to the claims checked here). -/
structure Upd where
  id : Nat
  txnid : Nat
  deleted : Bool
  size : Nat
deriving DecidableEq, Repr

/-- wt_update_alloc: build a WT_UPDATE for value (value = none is a remove,
producing a tombstone with WT_UPDATE_DELETED set), and also return
sizeof(WT_UPDATE) + payload size, the footprint reported to the caller.
uSz stands for the compile-time constant sizeof(WT_UPDATE); id models the
address of the allocation and txnid the id later assigned by wt_txn_modify. -/
def __wt_update_alloc (uSz id txnid : Nat) (value : Option (List Nat)) :
    Upd × Nat :=
  match value with
  | none => ({ id := id, txnid := txnid, deleted := true, size := 0 }, uSz)
  | some v =>
      ({ id := id, txnid := txnid, deleted := false, size := v.length },
        uSz + v.length)

/-- wt_update_obsolete_check: walk the chain for the first update visible to
all sessions; if it has a successor list, detach it with one CAS on the
next pointer.  casOk = false models that CAS failing because a racing pruner
already changed the pointer.  Returns the (possibly truncated) chain and the
detached tail (none = nothing was discarded, the NULL return of the C code). -/
def __wt_update_obsolete_check (vis : Nat → Bool) (casOk : Bool) :
    List Upd → List Upd × Option (List Upd)
  | [] => ([], none)
  | u :: rest =>
    if vis u.txnid then
      match rest with
      | [] => (u :: rest, none)
      | _ :: _ =>
        if casOk then ([u], some rest) else (u :: rest, none)
    else
      ((u :: (__wt_update_obsolete_check vis casOk rest).1),
        (__wt_update_obsolete_check vis casOk rest).2)

/-- wt_update_obsolete_free: the size accumulated over the freed list and
passed to wt_cache_page_inmem_decr (the C code skips the call when the sum
is zero, which decrements by the same amount, namely nothing).  A deleted
record has a dummy size field, so only sizeof(WT_UPDATE) is counted for it. -/
def __wt_update_obsolete_free (uSz : Nat) : List Upd → Nat
  | [] => 0
  | u :: rest =>
      (uSz + (if u.deleted then 0 else u.size)) +
        __wt_update_obsolete_free uSz rest

/-- The address (id) of the update at the head of a chain, NULL when empty:
the value of *upd_entry used in the pointer comparison of the serial code. -/
def headId : List Upd → Option Nat
  | [] => none
  | u :: _ => some u.id

/-- wt_update_serial_func: re-check the head under the serialization ticket,
re-run wt_txn_update_check if a racing writer changed it, then publish upd
at the head and run the obsolete collector on upd.next.  check models
wt_txn_update_check applied to the current chain (true = ok), wrapped the
write-generation wrap guard.  On success returns the new chain together with
the detached obsolete tail handed back to the caller. -/
def __wt_update_serial_func (wrapped : Bool) (check : List Upd → Bool)
    (vis : Nat → Bool) (casOk : Bool) (old_head : Option Nat) (upd : Upd)
    (chain : List Upd) : Except WtRet (List Upd × Option (List Upd)) :=
  if wrapped then Except.error WtRet.restart
  else if (headId chain != old_head) && !(check chain) then
    Except.error WtRet.conflict
  else
    (Except.ok (upd :: (__wt_update_obsolete_check vis casOk chain).1,
      (__wt_update_obsolete_check vis casOk chain).2))

theorem obsolete_check_no_visible (vis : Nat → Bool) (casOk : Bool) :
    ∀ chain : List Upd, (∀ w ∈ chain, vis w.txnid = false) →
      __wt_update_obsolete_check vis casOk chain = (chain, none) := by
  intro chain
  induction chain with
  | nil => intro _; rfl
  | cons u rest ih =>
    intro h
    have hu : vis u.txnid = false := h u (List.mem_cons_self u rest)
    have hrest := ih (fun w hw => h w (List.mem_cons_of_mem u hw))
    simp [__wt_update_obsolete_check, hu, hrest]

theorem obsolete_check_at_first_visible (vis : Nat → Bool) (casOk : Bool)
    (u : Upd) : ∀ (pre tl : List Upd), (∀ w ∈ pre, vis w.txnid = false) →
      vis u.txnid = true →
      __wt_update_obsolete_check vis casOk (pre ++ u :: tl) =
        (match tl, casOk with
         | [], _ => (pre ++ u :: tl, none)
         | _ :: _, false => (pre ++ u :: tl, none)
         | _ :: _, true => (pre ++ [u], some tl)) := by
  intro pre
  induction pre with
  | nil =>
    intro tl _ hu
    cases tl with
    | nil => simp [__wt_update_obsolete_check, hu]
    | cons x xs =>
      cases casOk with
      | false => simp [__wt_update_obsolete_check, hu]
      | true => simp [__wt_update_obsolete_check, hu]
  | cons w ws ih =>
    intro tl h hu
    have hw : vis w.txnid = false := h w (List.mem_cons_self w ws)
    have hrec := ih tl (fun q hq => h q (List.mem_cons_of_mem w hq)) hu
    cases tl with
    | nil => simp [__wt_update_obsolete_check, hw, hrec]
    | cons x xs =>
      cases casOk with
      | false => simp [__wt_update_obsolete_check, hw, hrec]
      | true => simp [__wt_update_obsolete_check, hw, hrec]

theorem obsolete_check_preserves_head (vis : Nat → Bool) (casOk : Bool) :
    ∀ chain : List Upd,
      ((__wt_update_obsolete_check vis casOk chain).1).head? = chain.head? := by
  intro chain
  induction chain with
  | nil => rfl
  | cons u rest _ =>
    by_cases hu : vis u.txnid
    · cases rest with
      | nil => simp [__wt_update_obsolete_check, hu]
      | cons x xs =>
        cases casOk with
        | false => simp [__wt_update_obsolete_check, hu]
        | true => simp [__wt_update_obsolete_check, hu]
    · simp [__wt_update_obsolete_check, hu]

/-- C3: the obsolete collector walks from the starting node to the first
update U with visible_all true; if there is no such node, or U has no
successor, or the single CAS on U.next fails, it returns absent and leaves
the chain alone; otherwise it truncates the chain right after U (U itself is
never removed) and returns the detached successor list. -/
theorem update_obsolete_collector_spec (vis : Nat → Bool) (casOk : Bool)
    (chain pre tl : List Upd) (u : Upd) :
    ((∀ w ∈ chain, vis w.txnid = false) →
        __wt_update_obsolete_check vis casOk chain = (chain, none)) ∧
    (chain = pre ++ u :: tl → (∀ w ∈ pre, vis w.txnid = false) →
      vis u.txnid = true →
      ((tl = [] →
          __wt_update_obsolete_check vis casOk chain = (chain, none)) ∧
       (casOk = false →
          __wt_update_obsolete_check vis casOk chain = (chain, none)) ∧
       (tl ≠ [] → casOk = true →
          __wt_update_obsolete_check vis casOk chain =
            (pre ++ [u], some tl)))) := by
  constructor
  · exact obsolete_check_no_visible vis casOk chain
  · intro hchain hpre hu
    subst hchain
    have h := obsolete_check_at_first_visible vis casOk u pre tl hpre hu
    refine ⟨?_, ?_, ?_⟩
    · intro htl; subst htl; simpa using h
    · intro hcas
      subst hcas
      cases tl with
      | nil => simpa using h
      | cons x xs => simpa using h
    · intro htl hcas
      subst hcas
      cases tl with
      | nil => exact absurd rfl htl
      | cons x xs => simpa using h

/-- C3 witness: a three-node chain whose middle node is the first visible
one; the collector truncates after it and returns the single-node tail. -/
theorem update_obsolete_collector_spec_witness :
    __wt_update_obsolete_check (fun t => t ≤ 10) true
        [⟨1, 20, false, 4⟩, ⟨2, 10, false, 5⟩, ⟨3, 5, true, 0⟩] =
      ([⟨1, 20, false, 4⟩, ⟨2, 10, false, 5⟩], some [⟨3, 5, true, 0⟩]) := by
  have h := (update_obsolete_collector_spec (fun t => decide (t ≤ 10)) true
      [⟨1, 20, false, 4⟩, ⟨2, 10, false, 5⟩, ⟨3, 5, true, 0⟩]
      [⟨1, 20, false, 4⟩] [⟨3, 5, true, 0⟩] ⟨2, 10, false, 5⟩).2
      rfl (by decide) (by decide)
  exact h.2.2 (by decide) rfl

/-- C7: freeing a truncated obsolete list decrements the page's in-memory
accounting by exactly the sum, over the freed records, of the fixed record
size plus the payload size, a tombstone contributing the fixed size only;
and that per-record charge is exactly the footprint wt_update_alloc reported
when the record was built. -/
theorem update_obsolete_free_accounting (uSz : Nat) (l : List Upd) :
    (__wt_update_obsolete_free uSz l =
      (l.map (fun u => uSz + if u.deleted then 0 else u.size)).sum) ∧
    (∀ id txnid v,
      uSz + (if ((__wt_update_alloc uSz id txnid v).1).deleted then 0
          else ((__wt_update_alloc uSz id txnid v).1).size) =
        (__wt_update_alloc uSz id txnid v).2) := by
  constructor
  · induction l with
    | nil => rfl
    | cons u rest ih => simp [__wt_update_obsolete_free, ih]
  · intro id txnid v
    cases v with
    | none => rfl
    | some bytes => rfl

/-- C2: under the serialization ticket, if the chain head moved since the
writer's snapshot, wt_txn_update_check is re-run on the current head and a
conflict aborts with write conflict; in every successful case the new update
is published at the head and its next pointer is the head current at publish
time (the obsolete pass never detaches the node right below the new head). -/
theorem update_serial_race_check (check : List Upd → Bool) (vis : Nat → Bool)
    (casOk : Bool) (old_head : Option Nat) (upd : Upd) (chain : List Upd) :
    (__wt_update_serial_func false check vis casOk old_head upd chain =
        Except.error WtRet.conflict ↔
      (headId chain ≠ old_head ∧ check chain = false)) ∧
    (∀ c' obs, __wt_update_serial_func false check vis casOk old_head upd
          chain = Except.ok (c', obs) →
        c'.head? = some upd ∧ c'.tail.head? = chain.head? ∧
        c' = upd :: (__wt_update_obsolete_check vis casOk chain).1 ∧
        obs = (__wt_update_obsolete_check vis casOk chain).2) := by
  constructor
  · constructor
    · intro h
      by_cases hrace : headId chain = old_head
      · simp [__wt_update_serial_func, hrace] at h
      · by_cases hchk : check chain
        · simp [__wt_update_serial_func, hchk] at h
        · exact ⟨hrace, by simpa using hchk⟩
    · rintro ⟨hrace, hchk⟩
      simp [__wt_update_serial_func, hrace, hchk]
  · intro c' obs h
    by_cases hcond : (headId chain != old_head) && !(check chain)
    · simp [__wt_update_serial_func, hcond] at h
    · simp [__wt_update_serial_func, hcond] at h
      refine ⟨?_, ?_, h.1.symm, h.2.symm⟩
      · rw [← h.1]; rfl
      · rw [← h.1]
        simpa using obsolete_check_preserves_head vis casOk chain

/-- C2 witness: a racing writer moved the head (snapshot said id 9, current
head is id 1) but the re-run check passes, so the publish succeeds with the
new update on top of the current head. -/
theorem update_serial_race_check_witness :
    ([⟨7, 30, false, 2⟩, ⟨1, 20, false, 4⟩] :
        List Upd).head? = some ⟨7, 30, false, 2⟩ ∧
    ([⟨7, 30, false, 2⟩, ⟨1, 20, false, 4⟩] :
        List Upd).tail.head? = ([⟨1, 20, false, 4⟩] : List Upd).head? := by
  have h := (update_serial_race_check (fun _ => true) (fun _ => false) true
      (some 9) ⟨7, 30, false, 2⟩ [⟨1, 20, false, 4⟩]).2
      [⟨7, 30, false, 2⟩, ⟨1, 20, false, 4⟩] none rfl
  exact ⟨h.1, h.2.1⟩

/-- Address of one skip-list forward pointer: a slot of the WT_INSERT_HEAD
head array, or the next slot at some level of a WT_INSERT node (by node id).
These are the values the cursor's ins_stack holds. -/
inductive InsPtr where
  | headPtr : Nat → InsPtr
  | nodePtr : Nat → Nat → InsPtr
deriving DecidableEq, Repr

/-- The level a forward-pointer address lives at. -/
def InsPtr.lvl : InsPtr → Nat
  | .headPtr l => l
  | .nodePtr _ l => l

/-- One gap's skip list: the WT_INSERT_HEAD head and tail arrays plus the
forward pointers of every WT_INSERT node (node id × level → successor id). -/
structure SkipState where
  head : Nat → Option Nat
  tail : Nat → Option Nat
  next : Nat → Nat → Option Nat

/-- Read the forward pointer at address p. -/
def derefIns (s : SkipState) : InsPtr → Option Nat
  | .headPtr l => s.head l
  | .nodePtr n l => s.next n l

/-- Store v through the forward-pointer address p. -/
def writeIns (s : SkipState) (p : InsPtr) (v : Option Nat) : SkipState :=
  match p with
  | .headPtr l =>
      { s with head := fun l2 => if l2 = l then v else s.head l2 }
  | .nodePtr n l =>
      { s with next := fun n2 l2 =>
          if n2 = n ∧ l2 = l then v else s.next n2 l2 }

/-- Store v into tail[l]. -/
def setTailIns (s : SkipState) (l : Nat) (v : Option Nat) : SkipState :=
  { s with tail := fun l2 => if l2 = l then v else s.tail l2 }

/-- *ins_stack[i]; the NULL entry reads as absent (the serial code only
dereferences the stack after its NULL check). -/
def stackDeref (s : SkipState) : Option InsPtr → Option Nat
  | none => none
  | some p => derefIns s p

/-- The position validation of wt_insert_serial_func at one level i
(true = this level raises no restart): the stack entry is non-NULL, still
points at the observed next node, and, for an observed tail position, the
list did not grow a new tail at this level in the meantime. -/
def insLevelOk (s : SkipState) (ins_stack : Nat → Option InsPtr)
    (next_stack : Nat → Option Nat) (i : Nat) : Bool :=
  match ins_stack i with
  | none => false
  | some p =>
    (derefIns s p == next_stack i) &&
    !((next_stack i == none) &&
      (match s.tail i with
       | none => false
       | some t => !(p == InsPtr.nodePtr t i)))

/-- The validation loop of wt_insert_serial_func over levels 0..d-1. -/
def insValidate (s : SkipState) (ins_stack : Nat → Option InsPtr)
    (next_stack : Nat → Option Nat) : Nat → Bool
  | 0 => true
  | i + 1 =>
      insValidate s ins_stack next_stack i &&
        insLevelOk s ins_stack next_stack i

/-- First publish loop, levels 0..d-1 in ascending order:
new_ins.next[i] = *ins_stack[i]. -/
def insPublishNext (ins_stack : Nat → Option InsPtr) (new_ins : Nat) :
    Nat → SkipState → SkipState
  | 0, s => s
  | i + 1, s =>
    let s1 := insPublishNext ins_stack new_ins i s
    writeIns s1 (InsPtr.nodePtr new_ins i) (stackDeref s1 (ins_stack i))

/-- The new-tail test of the second publish loop:
tail[i] == NULL || ins_stack[i] == &tail[i]->next[i]. -/
def insIsNewTail (s : SkipState) (ins_stack : Nat → Option InsPtr)
    (i : Nat) : Bool :=
  match s.tail i with
  | none => true
  | some t => ins_stack i == some (InsPtr.nodePtr t i)

/-- One iteration of the second publish loop at level i: update tail[i] when
the new node becomes the tail there, then *ins_stack[i] = new_ins. -/
def insLinkStep (ins_stack : Nat → Option InsPtr) (new_ins i : Nat)
    (s : SkipState) : SkipState :=
  let s2 := if insIsNewTail s ins_stack i then
      setTailIns s i (some new_ins) else s
  match ins_stack i with
  | none => s2
  | some p => writeIns s2 p (some new_ins)

/-- Second publish loop, levels 0..d-1 in ascending order. -/
def insPublishLink (ins_stack : Nat → Option InsPtr) (new_ins : Nat) :
    Nat → SkipState → SkipState
  | 0, s => s
  | i + 1, s =>
      insLinkStep ins_stack new_ins i (insPublishLink ins_stack new_ins i s)

/-- wt_insert_serial_func: fail fast if the page's write generation wrapped,
validate the predecessor stack at every level of the new node, then run the
two-phase publish (the release barrier between the two loops orders the
stores; in this sequential embedding only the final state is observable). -/
def __wt_insert_serial_func (wrapped : Bool) (s : SkipState)
    (ins_stack : Nat → Option InsPtr) (next_stack : Nat → Option Nat)
    (new_ins : Nat) (skipdepth : Nat) : Except WtRet SkipState :=
  if wrapped then Except.error WtRet.restart
  else if !(insValidate s ins_stack next_stack skipdepth) then
    Except.error WtRet.restart
  else
    Except.ok (insPublishLink ins_stack new_ins skipdepth
      (insPublishNext ins_stack new_ins skipdepth s))

/-- Well-formedness of one predecessor-stack entry, as positioning always
builds it: non-NULL, addressing a level-i pointer, and not pointing into the
new node itself (the new node is thread-local until published). -/
def stackWFb (ins_stack : Nat → Option InsPtr) (new_ins : Nat)
    (i : Nat) : Bool :=
  match ins_stack i with
  | none => false
  | some p => (p.lvl == i) && !(p == InsPtr.nodePtr new_ins i)

theorem derefIns_setTailIns (s : SkipState) (l : Nat) (v : Option Nat)
    (q : InsPtr) : derefIns (setTailIns s l v) q = derefIns s q := by
  cases q <;> rfl

theorem writeIns_tail (s : SkipState) (p : InsPtr) (v : Option Nat) :
    (writeIns s p v).tail = s.tail := by
  cases p <;> rfl

theorem derefIns_writeIns_eq (s : SkipState) (p : InsPtr) (v : Option Nat) :
    derefIns (writeIns s p v) p = v := by
  cases p <;> simp [writeIns, derefIns]

theorem derefIns_writeIns_ne (s : SkipState) (p q : InsPtr) (v : Option Nat)
    (h : q ≠ p) : derefIns (writeIns s p v) q = derefIns s q := by
  cases p with
  | headPtr l =>
    cases q with
    | headPtr l2 =>
      have : l2 ≠ l := fun he => h (by rw [he])
      simp [writeIns, derefIns, this]
    | nodePtr n2 l2 => rfl
  | nodePtr n l =>
    cases q with
    | headPtr l2 => rfl
    | nodePtr n2 l2 =>
      have : ¬(n2 = n ∧ l2 = l) := by
        rintro ⟨h1, h2⟩; exact h (by rw [h1, h2])
      simp [writeIns, derefIns, this]

theorem stackWFb_elim (ins_stack : Nat → Option InsPtr) (new_ins i : Nat)
    (h : stackWFb ins_stack new_ins i = true) :
    ∃ p, ins_stack i = some p ∧ p.lvl = i ∧ p ≠ InsPtr.nodePtr new_ins i := by
  cases hp : ins_stack i with
  | none => simp [stackWFb, hp] at h
  | some p =>
    simp [stackWFb, hp] at h
    exact ⟨p, rfl, h.1, h.2⟩

theorem insLevelOk_iff (s : SkipState) (ins_stack : Nat → Option InsPtr)
    (next_stack : Nat → Option Nat) (i : Nat) (h : ins_stack i ≠ none) :
    insLevelOk s ins_stack next_stack i = true ↔
      (stackDeref s (ins_stack i) = next_stack i ∧
       (next_stack i = none → ∀ t, s.tail i = some t →
         ins_stack i = some (InsPtr.nodePtr t i))) := by
  cases hp : ins_stack i with
  | none => exact absurd hp h
  | some p =>
    cases ht : s.tail i with
    | none =>
      simp [insLevelOk, hp, ht, stackDeref]
    | some t =>
      simp [insLevelOk, hp, ht, stackDeref]
      intro _
      tauto

theorem insValidate_iff (s : SkipState) (ins_stack : Nat → Option InsPtr)
    (next_stack : Nat → Option Nat) : ∀ d,
    insValidate s ins_stack next_stack d = true ↔
      ∀ i, i < d → insLevelOk s ins_stack next_stack i = true := by
  intro d
  induction d with
  | zero => simp [insValidate]
  | succ n ih =>
    rw [insValidate, Bool.and_eq_true, ih]
    constructor
    · rintro ⟨h1, h2⟩ i hi
      rcases Nat.lt_succ_iff_lt_or_eq.mp hi with hlt | heq
      · exact h1 i hlt
      · subst heq; exact h2
    · intro h
      exact ⟨fun i hi => h i (Nat.lt_succ_of_lt hi), h n (Nat.lt_succ_self n)⟩

/-- C1: with the write generation unwrapped and a non-NULL predecessor stack,
the insert serialization step publishes iff every level 0..h-1 passes both
position checks (*prev[i] still equals the observed next; and when the
observed next was absent, tail[i] is absent or prev[i] is the current tail's
next[i] slot); otherwise it returns restart. -/
theorem insert_serial_validation (s : SkipState)
    (ins_stack : Nat → Option InsPtr) (next_stack : Nat → Option Nat)
    (new_ins skipdepth : Nat)
    (hs : ∀ i, i < skipdepth → ins_stack i ≠ none) :
    ((∃ s2, __wt_insert_serial_func false s ins_stack next_stack new_ins
        skipdepth = Except.ok s2) ↔
      (∀ i, i < skipdepth →
        stackDeref s (ins_stack i) = next_stack i ∧
        (next_stack i = none → ∀ t, s.tail i = some t →
          ins_stack i = some (InsPtr.nodePtr t i)))) ∧
    (¬ (∀ i, i < skipdepth →
        stackDeref s (ins_stack i) = next_stack i ∧
        (next_stack i = none → ∀ t, s.tail i = some t →
          ins_stack i = some (InsPtr.nodePtr t i))) →
      __wt_insert_serial_func false s ins_stack next_stack new_ins skipdepth =
        Except.error WtRet.restart) := by
  have hcond : insValidate s ins_stack next_stack skipdepth = true ↔
      (∀ i, i < skipdepth →
        stackDeref s (ins_stack i) = next_stack i ∧
        (next_stack i = none → ∀ t, s.tail i = some t →
          ins_stack i = some (InsPtr.nodePtr t i))) := by
    rw [insValidate_iff]
    constructor
    · intro h i hi
      exact (insLevelOk_iff s ins_stack next_stack i (hs i hi)).mp (h i hi)
    · intro h i hi
      exact (insLevelOk_iff s ins_stack next_stack i (hs i hi)).mpr (h i hi)
  constructor
  · constructor
    · rintro ⟨s2, h2⟩
      by_cases hv : insValidate s ins_stack next_stack skipdepth
      · exact hcond.mp hv
      · simp [__wt_insert_serial_func, hv] at h2
    · intro h
      have hv := hcond.mpr h
      refine ⟨insPublishLink ins_stack new_ins skipdepth
        (insPublishNext ins_stack new_ins skipdepth s), ?_⟩
      simp [__wt_insert_serial_func, hv]
  · intro h
    have hv : insValidate s ins_stack next_stack skipdepth = false := by
      cases hb : insValidate s ins_stack next_stack skipdepth
      · rfl
      · exact absurd (hcond.mp hb) h
    simp [__wt_insert_serial_func, hv]

/-- Concrete instances used by the skip-list witnesses: an empty skip list
and a predecessor stack addressing its head slots. -/
def skipEmpty : SkipState :=
  ⟨fun _ => none, fun _ => none, fun _ _ => none⟩

def stkHeadW : Nat → Option InsPtr := fun i => some (InsPtr.headPtr i)

def nxtNoneW : Nat → Option Nat := fun _ => none

/-- C1 witness: inserting node 5 with height 2 into an empty list passes the
validation at both levels and publishes. -/
theorem insert_serial_validation_witness :
    ∃ s2, __wt_insert_serial_func false skipEmpty stkHeadW nxtNoneW 5 2 =
      Except.ok s2 :=
  (insert_serial_validation skipEmpty stkHeadW nxtNoneW 5 2
      (by decide)).1.mpr
    (fun _ _ => ⟨rfl, fun _ t ht => nomatch ht⟩)

theorem insIsNewTail_iff (s : SkipState) (ins_stack : Nat → Option InsPtr)
    (i : Nat) :
    insIsNewTail s ins_stack i = true ↔
      (s.tail i = none ∨ ∃ t, s.tail i = some t ∧
        ins_stack i = some (InsPtr.nodePtr t i)) := by
  cases ht : s.tail i with
  | none => simp [insIsNewTail, ht]
  | some t => simp [insIsNewTail, ht]

theorem insPublishNext_spec (ins_stack : Nat → Option InsPtr)
    (new_ins : Nat) : ∀ (d : Nat) (s : SkipState),
    (∀ i, i < d → stackWFb ins_stack new_ins i = true) →
      ((insPublishNext ins_stack new_ins d s).tail = s.tail) ∧
      (∀ q : InsPtr, (∀ i, i < d → q ≠ InsPtr.nodePtr new_ins i) →
         derefIns (insPublishNext ins_stack new_ins d s) q = derefIns s q) ∧
      (∀ i, i < d →
         (insPublishNext ins_stack new_ins d s).next new_ins i =
           stackDeref s (ins_stack i)) := by
  intro d
  induction d with
  | zero =>
    intro s _
    exact ⟨rfl, fun q _ => rfl, fun i hi => absurd hi (Nat.not_lt_zero i)⟩
  | succ n ih =>
    intro s hwf
    obtain ⟨ht, hq, hn⟩ := ih s (fun i hi => hwf i (Nat.lt_succ_of_lt hi))
    obtain ⟨p, hp, hplvl, hpne⟩ := stackWFb_elim ins_stack new_ins n
      (hwf n (Nat.lt_succ_self n))
    refine ⟨?_, ?_, ?_⟩
    · show (insPublishNext ins_stack new_ins (n + 1) s).tail = s.tail
      simp only [insPublishNext]
      rw [writeIns_tail, ht]
    · intro q hqne
      show derefIns (insPublishNext ins_stack new_ins (n + 1) s) q =
        derefIns s q
      simp only [insPublishNext]
      rw [derefIns_writeIns_ne _ _ _ _ (hqne n (Nat.lt_succ_self n))]
      exact hq q (fun i hi => hqne i (Nat.lt_succ_of_lt hi))
    · intro i hi
      rcases Nat.lt_succ_iff_lt_or_eq.mp hi with hlt | heq
      · have hne : InsPtr.nodePtr new_ins i ≠ InsPtr.nodePtr new_ins n := by
          intro he
          have : i = n := by
            have := congrArg InsPtr.lvl he
            simpa [InsPtr.lvl] using this
          exact absurd this (Nat.ne_of_lt hlt)
        show derefIns (insPublishNext ins_stack new_ins (n + 1) s)
            (InsPtr.nodePtr new_ins i) = stackDeref s (ins_stack i)
        simp only [insPublishNext]
        rw [derefIns_writeIns_ne _ _ _ _ hne]
        exact hn i hlt
      · subst heq
        have hside : ∀ j, j < i → p ≠ InsPtr.nodePtr new_ins j := by
          intro j hj he
          rw [he] at hplvl
          simp only [InsPtr.lvl] at hplvl
          exact absurd hplvl (Nat.ne_of_lt hj)
        show derefIns (insPublishNext ins_stack new_ins (i + 1) s)
            (InsPtr.nodePtr new_ins i) = stackDeref s (ins_stack i)
        simp only [insPublishNext]
        rw [derefIns_writeIns_eq, hp]
        show derefIns (insPublishNext ins_stack new_ins i s) p = derefIns s p
        exact hq p hside


theorem insLinkStep_tail_ne (ins_stack : Nat → Option InsPtr)
    (new_ins i : Nat) (s : SkipState) (l : Nat) (hl : l ≠ i) :
    (insLinkStep ins_stack new_ins i s).tail l = s.tail l := by
  unfold insLinkStep
  cases ins_stack i with
  | none =>
    split
    · simp [setTailIns, hl]
    · rfl
  | some p =>
    rw [writeIns_tail]
    split
    · simp [setTailIns, hl]
    · rfl

theorem insLinkStep_deref_ne (ins_stack : Nat → Option InsPtr)
    (new_ins i : Nat) (s : SkipState) (q : InsPtr)
    (hq : ∀ p2, ins_stack i = some p2 → q ≠ p2) :
    derefIns (insLinkStep ins_stack new_ins i s) q = derefIns s q := by
  unfold insLinkStep
  cases hp : ins_stack i with
  | none =>
    split
    · exact derefIns_setTailIns _ _ _ q
    · rfl
  | some p =>
    rw [derefIns_writeIns_ne _ _ _ _ (hq p hp)]
    split
    · exact derefIns_setTailIns _ _ _ q
    · rfl

theorem insLinkStep_deref_at (ins_stack : Nat → Option InsPtr)
    (new_ins i : Nat) (s : SkipState) (p : InsPtr)
    (hp : ins_stack i = some p) :
    stackDeref (insLinkStep ins_stack new_ins i s) (ins_stack i) =
      some new_ins := by
  unfold insLinkStep
  rw [hp]
  show derefIns (writeIns _ p (some new_ins)) p = some new_ins
  exact derefIns_writeIns_eq _ _ _

theorem insLinkStep_tail_at (ins_stack : Nat → Option InsPtr)
    (new_ins i : Nat) (s : SkipState) :
    (insIsNewTail s ins_stack i = true →
      (insLinkStep ins_stack new_ins i s).tail i = some new_ins) ∧
    (insIsNewTail s ins_stack i = false →
      (insLinkStep ins_stack new_ins i s).tail i = s.tail i) := by
  unfold insLinkStep
  constructor
  · intro hc
    cases ins_stack i with
    | none => simp [hc, setTailIns]
    | some p => rw [writeIns_tail]; simp [hc, setTailIns]
  · intro hc
    cases ins_stack i with
    | none => simp [hc]
    | some p => rw [writeIns_tail]; simp [hc]

theorem insPublishLink_spec (ins_stack : Nat → Option InsPtr)
    (new_ins : Nat) : ∀ (d : Nat) (s : SkipState),
    (∀ i, i < d → stackWFb ins_stack new_ins i = true) →
      (∀ l, d ≤ l →
        (insPublishLink ins_stack new_ins d s).tail l = s.tail l) ∧
      (∀ q : InsPtr, d ≤ q.lvl →
        derefIns (insPublishLink ins_stack new_ins d s) q = derefIns s q) ∧
      (∀ i, i < d →
        stackDeref (insPublishLink ins_stack new_ins d s) (ins_stack i) =
          some new_ins) ∧
      (∀ i, i < d →
        (insPublishLink ins_stack new_ins d s).next new_ins i =
          s.next new_ins i) ∧
      (∀ i, i < d →
        ((insIsNewTail s ins_stack i = true →
            (insPublishLink ins_stack new_ins d s).tail i = some new_ins) ∧
         (insIsNewTail s ins_stack i = false →
            (insPublishLink ins_stack new_ins d s).tail i = s.tail i))) := by
  intro d
  induction d with
  | zero =>
    intro s _
    exact ⟨fun l _ => rfl, fun q _ => rfl,
      fun i hi => absurd hi (Nat.not_lt_zero i),
      fun i hi => absurd hi (Nat.not_lt_zero i),
      fun i hi => absurd hi (Nat.not_lt_zero i)⟩
  | succ n ih =>
    intro s hwf
    obtain ⟨iht, ihq, ihs, ihn, ihc⟩ :=
      ih s (fun i hi => hwf i (Nat.lt_succ_of_lt hi))
    obtain ⟨p, hp, hplvl, hpne⟩ := stackWFb_elim ins_stack new_ins n
      (hwf n (Nat.lt_succ_self n))
    have hunf : insPublishLink ins_stack new_ins (n + 1) s =
        insLinkStep ins_stack new_ins n
          (insPublishLink ins_stack new_ins n s) := rfl
    have hqne : ∀ q : InsPtr, q.lvl ≠ n →
        ∀ p2, ins_stack n = some p2 → q ≠ p2 := by
      intro q hql p2 hp2 he
      rw [hp2] at hp
      cases Option.some_inj.mp hp
      subst he
      exact hql hplvl
    have htailn : (insPublishLink ins_stack new_ins n s).tail n =
        s.tail n := iht n (le_refl n)
    have hcongr : insIsNewTail (insPublishLink ins_stack new_ins n s)
        ins_stack n = insIsNewTail s ins_stack n := by
      unfold insIsNewTail
      rw [htailn]
    refine ⟨?_, ?_, ?_, ?_, ?_⟩
    · intro l hl
      rw [hunf, insLinkStep_tail_ne _ _ _ _ l
        (Nat.ne_of_gt (Nat.lt_of_succ_le hl))]
      exact iht l (Nat.le_of_succ_le hl)
    · intro q hql
      rw [hunf, insLinkStep_deref_ne _ _ _ _ q
        (hqne q (Nat.ne_of_gt (Nat.lt_of_succ_le hql)))]
      exact ihq q (Nat.le_of_succ_le hql)
    · intro i hi
      rcases Nat.lt_succ_iff_lt_or_eq.mp hi with hlt | heq
      · obtain ⟨pi, hpi, hpilvl, _⟩ := stackWFb_elim ins_stack new_ins i
          (hwf i (Nat.lt_succ_of_lt hlt))
        rw [hunf]
        have hmid : stackDeref (insLinkStep ins_stack new_ins n
            (insPublishLink ins_stack new_ins n s)) (ins_stack i) =
            stackDeref (insPublishLink ins_stack new_ins n s)
              (ins_stack i) := by
          rw [hpi]
          exact insLinkStep_deref_ne _ _ _ _ pi
            (hqne pi (by rw [hpilvl]; exact Nat.ne_of_lt hlt))
        rw [hmid]
        exact ihs i hlt
      · subst heq
        rw [hunf]
        exact insLinkStep_deref_at _ _ _ _ p hp
    · intro i hi
      have hne : ∀ p2, ins_stack n = some p2 →
          InsPtr.nodePtr new_ins i ≠ p2 := by
        intro p2 hp2
        rw [hp2] at hp
        cases Option.some_inj.mp hp
        rcases Nat.lt_succ_iff_lt_or_eq.mp hi with hlt | heq
        · intro he
          rw [← he] at hplvl
          simp only [InsPtr.lvl] at hplvl
          exact absurd hplvl (Nat.ne_of_lt hlt)
        · subst heq
          exact Ne.symm hpne
      show derefIns (insPublishLink ins_stack new_ins (n + 1) s)
          (InsPtr.nodePtr new_ins i) = derefIns s (InsPtr.nodePtr new_ins i)
      rw [hunf, insLinkStep_deref_ne _ _ _ _ _ hne]
      rcases Nat.lt_succ_iff_lt_or_eq.mp hi with hlt | heq
      · exact ihn i hlt
      · subst heq
        exact ihq (InsPtr.nodePtr new_ins i) (by simp [InsPtr.lvl])
    · intro i hi
      rcases Nat.lt_succ_iff_lt_or_eq.mp hi with hlt | heq
      · have hstep : (insPublishLink ins_stack new_ins (n + 1) s).tail i =
            (insPublishLink ins_stack new_ins n s).tail i := by
          rw [hunf]
          exact insLinkStep_tail_ne _ _ _ _ i (Nat.ne_of_lt hlt)
        rw [hstep]
        exact ihc i hlt
      · subst heq
        constructor
        · intro hc
          rw [hunf]
          exact (insLinkStep_tail_at ins_stack new_ins i
            (insPublishLink ins_stack new_ins i s)).1
            (by rw [hcongr]; exact hc)
        · intro hc
          rw [hunf,
            (insLinkStep_tail_at ins_stack new_ins i
              (insPublishLink ins_stack new_ins i s)).2
              (by rw [hcongr]; exact hc)]
          exact htailn

/-- C4: after a successful insert publish of a node drawn with height h, the
node is linked at exactly levels 0..h-1: at each such level the validated
predecessor pointer now points to the new node, the new node's next[i]
equals the previous successor there (the observed one, which validation
proved still current), and tail[i] is updated to the new node exactly when
tail[i] was absent or the predecessor pointer was the old tail's next[i]
slot; every tail entry and every forward pointer at level h or above is
untouched. -/
theorem insert_publish_links (s s2 : SkipState)
    (ins_stack : Nat → Option InsPtr) (next_stack : Nat → Option Nat)
    (new_ins skipdepth : Nat)
    (hwf : ∀ i, i < skipdepth → stackWFb ins_stack new_ins i = true)
    (hok : __wt_insert_serial_func false s ins_stack next_stack new_ins
        skipdepth = Except.ok s2) :
    (∀ i, i < skipdepth →
      stackDeref s2 (ins_stack i) = some new_ins ∧
      s2.next new_ins i = next_stack i ∧
      s2.next new_ins i = stackDeref s (ins_stack i) ∧
      ((s.tail i = none ∨ ∃ t, s.tail i = some t ∧
          ins_stack i = some (InsPtr.nodePtr t i)) →
        s2.tail i = some new_ins) ∧
      (¬ (s.tail i = none ∨ ∃ t, s.tail i = some t ∧
          ins_stack i = some (InsPtr.nodePtr t i)) →
        s2.tail i = s.tail i)) ∧
    (∀ l, skipdepth ≤ l → s2.tail l = s.tail l) ∧
    (∀ q : InsPtr, skipdepth ≤ q.lvl → derefIns s2 q = derefIns s q) := by
  have hval : insValidate s ins_stack next_stack skipdepth = true := by
    cases hb : insValidate s ins_stack next_stack skipdepth
    · simp [__wt_insert_serial_func, hb] at hok
    · rfl
  have hs2 : s2 = insPublishLink ins_stack new_ins skipdepth
      (insPublishNext ins_stack new_ins skipdepth s) := by
    simp [__wt_insert_serial_func, hval] at hok
    exact hok.symm
  obtain ⟨ht1, hq1, hn1⟩ :=
    insPublishNext_spec ins_stack new_ins skipdepth s hwf
  obtain ⟨lt1, lq1, ls1, ln1, lc1⟩ := insPublishLink_spec ins_stack new_ins
    skipdepth (insPublishNext ins_stack new_ins skipdepth s) hwf
  have hcongr : ∀ i,
      insIsNewTail (insPublishNext ins_stack new_ins skipdepth s)
        ins_stack i = insIsNewTail s ins_stack i := by
    intro i
    unfold insIsNewTail
    rw [ht1]
  subst hs2
  refine ⟨?_, ?_, ?_⟩
  · intro i hi
    obtain ⟨p, hp, hplvl, hpne⟩ :=
      stackWFb_elim ins_stack new_ins i (hwf i hi)
    have hlevel :=
      ((insValidate_iff s ins_stack next_stack skipdepth).mp hval) i hi
    have hspec := (insLevelOk_iff s ins_stack next_stack i
      (by rw [hp]; exact fun h2 => Option.noConfusion h2)).mp hlevel
    refine ⟨ls1 i hi, ?_, ?_, ?_, ?_⟩
    · rw [ln1 i hi, hn1 i hi]
      exact hspec.1
    · rw [ln1 i hi]
      exact hn1 i hi
    · intro hcond
      have hb : insIsNewTail s ins_stack i = true :=
        (insIsNewTail_iff s ins_stack i).mpr hcond
      exact (lc1 i hi).1 (by rw [hcongr i]; exact hb)
    · intro hcond
      have hb : insIsNewTail s ins_stack i = false := by
        cases hx : insIsNewTail s ins_stack i
        · rfl
        · exact absurd ((insIsNewTail_iff s ins_stack i).mp hx) hcond
      rw [(lc1 i hi).2 (by rw [hcongr i]; exact hb)]
      exact congrFun ht1 i
  · intro l hl
    rw [lt1 l hl]
    exact congrFun ht1 l
  · intro q hql
    rw [lq1 q hql]
    refine hq1 q ?_
    intro i hi he
    rw [he] at hql
    simp only [InsPtr.lvl] at hql
    exact absurd hql (Nat.not_le_of_lt hi)

/-- C4 witness: publishing node 5 with height 2 into the empty list leaves
every level at or above 2 untouched (and the theorem's other conclusions
hold there as well). -/
theorem insert_publish_links_witness :
    (∀ i, i < 2 → stackWFb stkHeadW 5 i = true) ∧
    (∀ l, 2 ≤ l →
      (insPublishLink stkHeadW 5 2
        (insPublishNext stkHeadW 5 2 skipEmpty)).tail l =
          skipEmpty.tail l) := by
  refine ⟨by decide, ?_⟩
  have h := insert_publish_links skipEmpty
    (insPublishLink stkHeadW 5 2 (insPublishNext stkHeadW 5 2 skipEmpty))
    stkHeadW nxtNoneW 5 2 (by decide) rfl
  exact h.2.1

/-- Leaf page mutation state: entries is the number N of on-page keys;
updArr and insArr model the page.u.row.upd and page.u.row.ins array
pointers (the value is the id of the published allocation), insHead the
WT_INSERT_HEAD pointer held in each slot of the ins array, and acct the
page's in-memory byte count. -/
structure Page where
  entries : Nat
  updArr : Option Nat
  insArr : Option Nat
  insHead : Nat → Option Nat
  acct : Nat

/-- Events recorded by one lazy-allocation block: whether a candidate was
allocated, whether it was freed after losing the CAS, and the accounting
increment performed. -/
structure AllocEv where
  allocated : Bool
  freedCand : Bool
  incr : Nat
deriving DecidableEq, Repr

/-- Lines 49-59 of wt_row_modify: lazily allocate and publish the update
array with a single-attempt CAS from NULL.  ptrSz is the size of one array
slot, cand the id of this thread's candidate allocation, callocOk whether
the calloc succeeds, race = some r when a racing thread published r between
the NULL read and the CAS (making the CAS fail). -/
def updArrayEnsure (ptrSz cand : Nat) (callocOk : Bool) (race : Option Nat)
    (p : Page) : Except WtRet (Page × AllocEv) :=
  match p.updArr with
  | some _ => Except.ok (p, ⟨false, false, 0⟩)
  | none =>
    if !callocOk then Except.error WtRet.allocFail
    else match race with
      | none =>
          Except.ok
            ({ p with
                updArr := some cand
                acct := p.acct + p.entries * ptrSz },
              ⟨true, false, p.entries * ptrSz⟩)
      | some r => Except.ok ({ p with updArr := some r }, ⟨true, true, 0⟩)

/-- Lines 96-106: the same block for the insert array, which carries one
extra slot for keys sorting before every on-page key. -/
def insArrayEnsure (ptrSz cand : Nat) (callocOk : Bool) (race : Option Nat)
    (p : Page) : Except WtRet (Page × AllocEv) :=
  match p.insArr with
  | some _ => Except.ok (p, ⟨false, false, 0⟩)
  | none =>
    if !callocOk then Except.error WtRet.allocFail
    else match race with
      | none =>
          Except.ok
            ({ p with
                insArr := some cand
                acct := p.acct + (p.entries + 1) * ptrSz },
              ⟨true, false, (p.entries + 1) * ptrSz⟩)
      | some r => Except.ok ({ p with insArr := some r }, ⟨true, true, 0⟩)

/-- Lines 110-142: lazily allocate and publish the WT_INSERT_HEAD of slot
gi with one CAS from NULL; headSz is sizeof(WT_INSERT_HEAD).  On a won CAS
the code also re-initializes the cursor's ins_stack and next_stack against
the fresh empty head (cursor state, not page state); on a lost CAS the
candidate is freed and deliberately no restart is returned, the
serialization step owns the stale-stack problem. -/
def insHeadEnsure (headSz cand : Nat) (callocOk : Bool) (race : Option Nat)
    (gi : Nat) (p : Page) : Except WtRet (Page × AllocEv) :=
  match p.insHead gi with
  | some _ => Except.ok (p, ⟨false, false, 0⟩)
  | none =>
    if !callocOk then Except.error WtRet.allocFail
    else match race with
      | none =>
          Except.ok
            ({ p with
                insHead := fun g => if g = gi then some cand else p.insHead g
                acct := p.acct + headSz },
              ⟨true, false, headSz⟩)
      | some r =>
          Except.ok
            ({ p with
                insHead := fun g => if g = gi then some r else p.insHead g },
              ⟨true, true, 0⟩)

/-- Oracles driving one wt_row_modify call: the cursor position kind, the
success of every fallible sub-call, the CAS races and the serialized
function's return code (the serialized insert and update functions are
modelled in full above; row_modify itself only branches on their return). -/
structure ModEnv where
  compare0 : Bool
  cbtInsSet : Bool
  slot : Nat
  searchSmallest : Bool
  callocUpdArrOk : Bool
  callocInsArrOk : Bool
  callocHeadOk : Bool
  raceUpdArr : Option Nat
  raceInsArr : Option Nat
  raceHead : Option Nat
  updateCheckOk : Bool
  updAllocOk : Bool
  insAllocOk : Bool
  txnModifyOk : Bool
  serialRet : Except WtRet Unit
  candUpdArr : Nat
  candInsArr : Nat
  candHead : Nat

/-- What one wt_row_modify call did: return code, final page, whether
txn_modify succeeded (logged) and txn_unmodify ran, and which of the two
nodes were allocated, freed on the error path, or taken over by the page. -/
structure ModOut where
  ret : Except WtRet Unit
  page : Page
  logged : Bool
  unmodifyCalled : Bool
  insAllocated : Bool
  updAllocated : Bool
  insFreed : Bool
  updFreed : Bool
  insTaken : Bool
  updTaken : Bool

/-- The err label of wt_row_modify: undo txn_modify when it was done, then
free whatever unpublished WT_INSERT / WT_UPDATE the locals still hold. -/
def rowModifyErr (e : WtRet) (p : Page) (logged insHeld updHeld : Bool) :
    ModOut :=
  { ret := Except.error e, page := p, logged := logged,
    unmodifyCalled := logged, insAllocated := insHeld,
    updAllocated := updHeld, insFreed := insHeld, updFreed := updHeld,
    insTaken := false, updTaken := false }

/-- The update path of wt_row_modify after the update-array setup: check
the snapshotted head, allocate the update, assign the transaction id, then
call the serialized update function; any failure jumps to err. -/
def updPathTail (env : ModEnv) (q : Page) : ModOut :=
  if !env.updateCheckOk then rowModifyErr WtRet.conflict q false false false
  else if !env.updAllocOk then
    rowModifyErr WtRet.allocFail q false false false
  else if !env.txnModifyOk then
    rowModifyErr WtRet.allocFail q false false true
  else match env.serialRet with
    | Except.error e => rowModifyErr e q true false true
    | Except.ok _ =>
        { ret := Except.ok (), page := q, logged := true,
          unmodifyCalled := false, insAllocated := false,
          updAllocated := true, insFreed := false, updFreed := false,
          insTaken := false, updTaken := true }

/-- The insert path of wt_row_modify after the array and head setup:
allocate the insert and update pair, assign the transaction id, then call
the serialized insert function; any failure jumps to err.  On success the
insert (carrying the update as its chain head) is taken by the page. -/
def insPathTail (env : ModEnv) (q : Page) : ModOut :=
  if !env.insAllocOk then rowModifyErr WtRet.allocFail q false false false
  else if !env.updAllocOk then
    rowModifyErr WtRet.allocFail q false true false
  else if !env.txnModifyOk then
    rowModifyErr WtRet.allocFail q false true true
  else match env.serialRet with
    | Except.error e => rowModifyErr e q true true true
    | Except.ok _ =>
        { ret := Except.ok (), page := q, logged := true,
          unmodifyCalled := false, insAllocated := true,
          updAllocated := true, insFreed := false, updFreed := false,
          insTaken := true, updTaken := true }

/-- wt_row_modify: dispatch on the cursor's comparison result to the update
path (compare == 0, with the update array allocated only when the cursor is
not already on an inserted key) or the insert path (gap index
searchSmallest ? entries : slot). -/
def __wt_row_modify (ptrSz headSz : Nat) (env : ModEnv) (p : Page) :
    ModOut :=
  if env.compare0 then
    match (if env.cbtInsSet then
        Except.ok (p, (⟨false, false, 0⟩ : AllocEv))
      else updArrayEnsure ptrSz env.candUpdArr env.callocUpdArrOk
        env.raceUpdArr p) with
    | Except.error e => rowModifyErr e p false false false
    | Except.ok (p1, _) => updPathTail env p1
  else
    match insArrayEnsure ptrSz env.candInsArr env.callocInsArrOk
        env.raceInsArr p with
    | Except.error e => rowModifyErr e p false false false
    | Except.ok (p1, _) =>
      match insHeadEnsure headSz env.candHead env.callocHeadOk env.raceHead
          (if env.searchSmallest then p1.entries else env.slot) p1 with
      | Except.error e => rowModifyErr e p1 false false false
      | Except.ok (p2, _) => insPathTail env p2

theorem updArrayEnsure_fields (ptrSz cand : Nat) (callocOk : Bool)
    (race : Option Nat) (p p1 : Page) (ev : AllocEv)
    (h : updArrayEnsure ptrSz cand callocOk race p = Except.ok (p1, ev)) :
    p1.insArr = p.insArr ∧ p1.insHead = p.insHead ∧
    (∀ a, p.updArr = some a → p1.updArr = some a) := by
  unfold updArrayEnsure at h
  cases hu : p.updArr with
  | some a =>
    rw [hu] at h
    simp only [Except.ok.injEq, Prod.mk.injEq] at h
    obtain ⟨hp, _⟩ := h
    subst hp
    exact ⟨rfl, rfl, fun a2 ha2 => hu.trans ha2⟩
  | none =>
    rw [hu] at h
    cases callocOk with
    | false => simp at h
    | true =>
      cases race with
      | none =>
        simp only [Bool.not_true, Except.ok.injEq, Prod.mk.injEq,
          if_neg (by simp : ¬ (false = true))] at h
        obtain ⟨hp, _⟩ := h
        subst hp
        exact ⟨rfl, rfl, fun a2 ha2 => nomatch ha2⟩
      | some r =>
        simp only [Bool.not_true, Except.ok.injEq, Prod.mk.injEq,
          if_neg (by simp : ¬ (false = true))] at h
        obtain ⟨hp, _⟩ := h
        subst hp
        exact ⟨rfl, rfl, fun a2 ha2 => nomatch ha2⟩

theorem insArrayEnsure_fields (ptrSz cand : Nat) (callocOk : Bool)
    (race : Option Nat) (p p1 : Page) (ev : AllocEv)
    (h : insArrayEnsure ptrSz cand callocOk race p = Except.ok (p1, ev)) :
    p1.updArr = p.updArr ∧ p1.insHead = p.insHead ∧
    (∀ a, p.insArr = some a → p1.insArr = some a) := by
  unfold insArrayEnsure at h
  cases hu : p.insArr with
  | some a =>
    rw [hu] at h
    simp only [Except.ok.injEq, Prod.mk.injEq] at h
    obtain ⟨hp, _⟩ := h
    subst hp
    exact ⟨rfl, rfl, fun a2 ha2 => hu.trans ha2⟩
  | none =>
    rw [hu] at h
    cases callocOk with
    | false => simp at h
    | true =>
      cases race with
      | none =>
        simp only [Bool.not_true, Except.ok.injEq, Prod.mk.injEq,
          if_neg (by simp : ¬ (false = true))] at h
        obtain ⟨hp, _⟩ := h
        subst hp
        exact ⟨rfl, rfl, fun a2 ha2 => nomatch ha2⟩
      | some r =>
        simp only [Bool.not_true, Except.ok.injEq, Prod.mk.injEq,
          if_neg (by simp : ¬ (false = true))] at h
        obtain ⟨hp, _⟩ := h
        subst hp
        exact ⟨rfl, rfl, fun a2 ha2 => nomatch ha2⟩

theorem insHeadEnsure_fields (headSz cand : Nat) (callocOk : Bool)
    (race : Option Nat) (gi : Nat) (p p1 : Page) (ev : AllocEv)
    (h : insHeadEnsure headSz cand callocOk race gi p = Except.ok (p1, ev)) :
    p1.updArr = p.updArr ∧ p1.insArr = p.insArr ∧
    (∀ g a, p.insHead g = some a → p1.insHead g = some a) := by
  unfold insHeadEnsure at h
  cases hu : p.insHead gi with
  | some a =>
    rw [hu] at h
    simp only [Except.ok.injEq, Prod.mk.injEq] at h
    obtain ⟨hp, _⟩ := h
    subst hp
    exact ⟨rfl, rfl, fun g a2 ha2 => ha2⟩
  | none =>
    rw [hu] at h
    cases callocOk with
    | false => simp at h
    | true =>
      cases race with
      | none =>
        simp only [Bool.not_true, Except.ok.injEq, Prod.mk.injEq,
          if_neg (by simp : ¬ (false = true))] at h
        obtain ⟨hp, _⟩ := h
        subst hp
        refine ⟨rfl, rfl, fun g a2 ha2 => ?_⟩
        show (if g = gi then some cand else p.insHead g) = some a2
        by_cases hg : g = gi
        · subst hg; rw [hu] at ha2; cases ha2
        · rw [if_neg hg]; exact ha2
      | some r =>
        simp only [Bool.not_true, Except.ok.injEq, Prod.mk.injEq,
          if_neg (by simp : ¬ (false = true))] at h
        obtain ⟨hp, _⟩ := h
        subst hp
        refine ⟨rfl, rfl, fun g a2 ha2 => ?_⟩
        show (if g = gi then some r else p.insHead g) = some a2
        by_cases hg : g = gi
        · subst hg; rw [hu] at ha2; cases ha2
        · rw [if_neg hg]; exact ha2

theorem updPathTail_page (env : ModEnv) (q : Page) :
    (updPathTail env q).page = q := by
  unfold updPathTail
  split
  · rfl
  · split
    · rfl
    · split
      · rfl
      · split <;> rfl

theorem insPathTail_page (env : ModEnv) (q : Page) :
    (insPathTail env q).page = q := by
  unfold insPathTail
  split
  · rfl
  · split
    · rfl
    · split
      · rfl
      · split <;> rfl

theorem row_modify_preserves_arrays (ptrSz headSz : Nat) (env : ModEnv)
    (p : Page) :
    (∀ a, p.updArr = some a →
      (__wt_row_modify ptrSz headSz env p).page.updArr = some a) ∧
    (∀ a, p.insArr = some a →
      (__wt_row_modify ptrSz headSz env p).page.insArr = some a) ∧
    (∀ g a, p.insHead g = some a →
      (__wt_row_modify ptrSz headSz env p).page.insHead g = some a) := by
  unfold __wt_row_modify
  split
  · split
    · exact ⟨fun a ha => ha, fun a ha => ha, fun g a ha => ha⟩
    · rename_i p1 ev heq
      have hf : p1.insArr = p.insArr ∧ p1.insHead = p.insHead ∧
          (∀ a, p.updArr = some a → p1.updArr = some a) := by
        by_cases hc : env.cbtInsSet
        · rw [if_pos hc] at heq
          simp only [Except.ok.injEq, Prod.mk.injEq] at heq
          obtain ⟨hp, _⟩ := heq
          subst hp
          exact ⟨rfl, rfl, fun a ha => ha⟩
        · rw [if_neg hc] at heq
          exact updArrayEnsure_fields _ _ _ _ _ _ _ heq
      rw [updPathTail_page]
      exact ⟨fun a ha => hf.2.2 a ha,
        fun a ha => by rw [hf.1]; exact ha,
        fun g a ha => by rw [hf.2.1]; exact ha⟩
  · split
    · exact ⟨fun a ha => ha, fun a ha => ha, fun g a ha => ha⟩
    · rename_i p1 ev heq
      obtain ⟨h1u, h1h, h1i⟩ := insArrayEnsure_fields _ _ _ _ _ _ _ heq
      split
      · refine ⟨fun a ha => ?_, fun a ha => ?_, fun g a ha => ?_⟩
        · show p1.updArr = some a
          rw [h1u]; exact ha
        · show p1.insArr = some a
          exact h1i a ha
        · show p1.insHead g = some a
          rw [h1h]; exact ha
      · rename_i p2 ev2 heq2
        obtain ⟨h2u, h2i, h2h⟩ := insHeadEnsure_fields _ _ _ _ _ _ _ _ heq2
        rw [insPathTail_page]
        exact ⟨fun a ha => by rw [h2u, h1u]; exact ha,
          fun a ha => by rw [h2i]; exact h1i a ha,
          fun g a ha => h2h g a (by rw [h1h]; exact ha)⟩

/-- C5: each auxiliary array (N update heads, N+1 insert heads) and each
skip-list head is published by a single-attempt CAS from absent: a pointer
already present is left exactly as it is with no accounting change, a won
CAS publishes the candidate and increments the page accounting by the size
of the allocation, a lost CAS frees the candidate with no accounting change
and leaves the racing winner's pointer in place; and wt_row_modify never
replaces an already-published array or head pointer. -/
theorem lazy_alloc_publish_once (ptrSz headSz cand : Nat) (callocOk : Bool)
    (race : Option Nat) (gi : Nat) (p : Page) :
    (∀ a, p.updArr = some a →
      updArrayEnsure ptrSz cand callocOk race p =
        Except.ok (p, ⟨false, false, 0⟩)) ∧
    (p.updArr = none → callocOk = true → race = none →
      updArrayEnsure ptrSz cand callocOk race p =
        Except.ok ({ p with
            updArr := some cand
            acct := p.acct + p.entries * ptrSz },
          ⟨true, false, p.entries * ptrSz⟩)) ∧
    (p.updArr = none → callocOk = true → ∀ r, race = some r →
      updArrayEnsure ptrSz cand callocOk race p =
        Except.ok ({ p with updArr := some r }, ⟨true, true, 0⟩)) ∧
    (∀ a, p.insArr = some a →
      insArrayEnsure ptrSz cand callocOk race p =
        Except.ok (p, ⟨false, false, 0⟩)) ∧
    (p.insArr = none → callocOk = true → race = none →
      insArrayEnsure ptrSz cand callocOk race p =
        Except.ok ({ p with
            insArr := some cand
            acct := p.acct + (p.entries + 1) * ptrSz },
          ⟨true, false, (p.entries + 1) * ptrSz⟩)) ∧
    (p.insArr = none → callocOk = true → ∀ r, race = some r →
      insArrayEnsure ptrSz cand callocOk race p =
        Except.ok ({ p with insArr := some r }, ⟨true, true, 0⟩)) ∧
    (∀ a, p.insHead gi = some a →
      insHeadEnsure headSz cand callocOk race gi p =
        Except.ok (p, ⟨false, false, 0⟩)) ∧
    (p.insHead gi = none → callocOk = true → race = none →
      insHeadEnsure headSz cand callocOk race gi p =
        Except.ok ({ p with
            insHead := fun g => if g = gi then some cand else p.insHead g
            acct := p.acct + headSz },
          ⟨true, false, headSz⟩)) ∧
    (p.insHead gi = none → callocOk = true → ∀ r, race = some r →
      insHeadEnsure headSz cand callocOk race gi p =
        Except.ok ({ p with
            insHead := fun g => if g = gi then some r else p.insHead g },
          ⟨true, true, 0⟩)) ∧
    (∀ env a, p.updArr = some a →
      (__wt_row_modify ptrSz headSz env p).page.updArr = some a) ∧
    (∀ env a, p.insArr = some a →
      (__wt_row_modify ptrSz headSz env p).page.insArr = some a) ∧
    (∀ env g a, p.insHead g = some a →
      (__wt_row_modify ptrSz headSz env p).page.insHead g = some a) := by
  refine ⟨?_, ?_, ?_, ?_, ?_, ?_, ?_, ?_, ?_, ?_, ?_, ?_⟩
  · intro a ha
    unfold updArrayEnsure
    rw [ha]
  · intro h1 h2 h3
    subst h2; subst h3
    unfold updArrayEnsure
    rw [h1]
    rfl
  · intro h1 h2 r h3
    subst h2; subst h3
    unfold updArrayEnsure
    rw [h1]
    rfl
  · intro a ha
    unfold insArrayEnsure
    rw [ha]
  · intro h1 h2 h3
    subst h2; subst h3
    unfold insArrayEnsure
    rw [h1]
    rfl
  · intro h1 h2 r h3
    subst h2; subst h3
    unfold insArrayEnsure
    rw [h1]
    rfl
  · intro a ha
    unfold insHeadEnsure
    rw [ha]
  · intro h1 h2 h3
    subst h2; subst h3
    unfold insHeadEnsure
    rw [h1]
    rfl
  · intro h1 h2 r h3
    subst h2; subst h3
    unfold insHeadEnsure
    rw [h1]
    rfl
  · exact fun env => (row_modify_preserves_arrays ptrSz headSz env p).1
  · exact fun env => (row_modify_preserves_arrays ptrSz headSz env p).2.1
  · exact fun env => (row_modify_preserves_arrays ptrSz headSz env p).2.2

/-- Concrete page and environment used by the row_modify witnesses. -/
def pageW : Page := ⟨3, none, none, fun _ => none, 0⟩

def envConflictW : ModEnv :=
  ⟨true, false, 1, false, true, true, true, none, none, none,
    false, true, true, true, Except.ok (), 21, 22, 23⟩

/-- C5 witness: on the witness page (update array absent), a race-free call
publishes the candidate array and adds entries * ptrSz = 24 bytes. -/
theorem lazy_alloc_publish_once_witness :
    updArrayEnsure 8 21 true none pageW =
      Except.ok ({ pageW with
          updArr := some 21
          acct := pageW.acct + pageW.entries * 8 },
        ⟨true, false, pageW.entries * 8⟩) :=
  (lazy_alloc_publish_once 8 64 21 true none 0 pageW).2.1 rfl rfl rfl

theorem updPathTail_cleanup (env : ModEnv) (q : Page) (e : WtRet)
    (h : (updPathTail env q).ret = Except.error e) :
    ((updPathTail env q).logged = true →
      (updPathTail env q).unmodifyCalled = true) ∧
    ((updPathTail env q).insAllocated = true →
      (updPathTail env q).insFreed = true) ∧
    ((updPathTail env q).updAllocated = true →
      (updPathTail env q).updFreed = true) ∧
    (updPathTail env q).insTaken = false ∧
    (updPathTail env q).updTaken = false := by
  revert h
  unfold updPathTail
  split
  · intro _; simp [rowModifyErr]
  · split
    · intro _; simp [rowModifyErr]
    · split
      · intro _; simp [rowModifyErr]
      · split
        · intro _; simp [rowModifyErr]
        · intro h; simp at h

theorem insPathTail_cleanup (env : ModEnv) (q : Page) (e : WtRet)
    (h : (insPathTail env q).ret = Except.error e) :
    ((insPathTail env q).logged = true →
      (insPathTail env q).unmodifyCalled = true) ∧
    ((insPathTail env q).insAllocated = true →
      (insPathTail env q).insFreed = true) ∧
    ((insPathTail env q).updAllocated = true →
      (insPathTail env q).updFreed = true) ∧
    (insPathTail env q).insTaken = false ∧
    (insPathTail env q).updTaken = false := by
  revert h
  unfold insPathTail
  split
  · intro _; simp [rowModifyErr]
  · split
    · intro _; simp [rowModifyErr]
    · split
      · intro _; simp [rowModifyErr]
      · split
        · intro _; simp [rowModifyErr]
        · intro h; simp at h

/-- C6: whenever wt_row_modify fails (restart, write conflict or allocation
failure, on either path), txn_unmodify is invoked exactly when txn_modify
had been done, every insert or update node the call allocated and did not
publish is freed on the error path, and nothing was taken by the page. -/
theorem row_modify_failure_cleanup (ptrSz headSz : Nat) (env : ModEnv)
    (p : Page) (e : WtRet)
    (h : (__wt_row_modify ptrSz headSz env p).ret = Except.error e) :
    ((__wt_row_modify ptrSz headSz env p).logged = true →
      (__wt_row_modify ptrSz headSz env p).unmodifyCalled = true) ∧
    ((__wt_row_modify ptrSz headSz env p).insAllocated = true →
      (__wt_row_modify ptrSz headSz env p).insFreed = true) ∧
    ((__wt_row_modify ptrSz headSz env p).updAllocated = true →
      (__wt_row_modify ptrSz headSz env p).updFreed = true) ∧
    (__wt_row_modify ptrSz headSz env p).insTaken = false ∧
    (__wt_row_modify ptrSz headSz env p).updTaken = false := by
  revert h
  unfold __wt_row_modify
  split
  · split
    · intro _; simp [rowModifyErr]
    · exact fun h => updPathTail_cleanup env _ e h
  · split
    · intro _; simp [rowModifyErr]
    · split
      · intro _; simp [rowModifyErr]
      · exact fun h => insPathTail_cleanup env _ e h

/-- C6 witness: a run whose update_check reports a conflict fails with
write conflict, takes nothing, and frees nothing it did not allocate. -/
theorem row_modify_failure_cleanup_witness :
    (__wt_row_modify 8 64 envConflictW pageW).insTaken = false ∧
    (__wt_row_modify 8 64 envConflictW pageW).updTaken = false := by
  have h := row_modify_failure_cleanup 8 64 envConflictW pageW
    WtRet.conflict rfl
  exact ⟨h.2.2.2.1, h.2.2.2.2⟩

/-- One scan of the append table (table_append's inner for loop over
g.append): zero the first slot holding target. none = target not present. -/
def appendScan (target : Nat) : List Nat → Option (List Nat)
  | [] => none
  | x :: rest =>
    if x = target then some (0 :: rest)
    else match appendScan target rest with
      | none => none
      | some r => some (x :: r)

/-- Put keyno into the first empty slot of the table. none = table full. -/
def appendPlace (keyno : Nat) : List Nat → Option (List Nat)
  | [] => none
  | x :: rest =>
    if x = 0 then some (keyno :: rest)
    else match appendPlace keyno rest with
      | none => none
      | some r => some (x :: r)

/-- Global append-oracle state: rows is the published row count, append the
unsorted reservation table (0 marks an empty slot, real keys are nonzero)
and appendCnt its population count. -/
structure AppendState where
  rows : Nat
  append : List Nat
  appendCnt : Nat
deriving DecidableEq, Repr

/-- The resolver sweep of table_append: repeatedly rescan the table for
rows + 1 and absorb it.  fuel only bounds the iteration count; table_append
passes the table length, which the lemmas below show always suffices. -/
def appendResolve : Nat → AppendState → AppendState
  | 0, st => st
  | f + 1, st =>
    match appendScan (st.rows + 1) st.append with
    | none => st
    | some arr => appendResolve f ⟨st.rows + 1, arr, st.appendCnt - 1⟩

/-- table_append, one pass under the append write lock.  The Bool is done:
false means the table was full, the caller sleeps and retries.  A thread
owning key rows + 1 advances rows and runs the resolver sweep; any other
thread records its key in the table. -/
def table_append (st : AppendState) (keyno : Nat) : AppendState × Bool :=
  if keyno = st.rows + 1 then
    (appendResolve st.append.length { st with rows := keyno }, true)
  else
    match appendPlace keyno st.append with
    | some arr =>
        ({ st with append := arr, appendCnt := st.appendCnt + 1 }, true)
    | none => (st, false)

theorem appendScan_mem (target : Nat) : ∀ (arr arr2 : List Nat),
    appendScan target arr = some arr2 → target ∈ arr := by
  intro arr
  induction arr with
  | nil => intro arr2 h; simp [appendScan] at h
  | cons x rest ih =>
    intro arr2 h
    by_cases hx : x = target
    · subst hx; exact List.mem_cons_self x rest
    · simp only [appendScan, if_neg hx] at h
      cases hs : appendScan target rest with
      | none => rw [hs] at h; cases h
      | some r => exact List.mem_cons_of_mem x (ih r hs)

theorem appendScan_subset (target : Nat) : ∀ (arr arr2 : List Nat),
    appendScan target arr = some arr2 → ∀ y ∈ arr2, y ∈ arr ∨ y = 0 := by
  intro arr
  induction arr with
  | nil => intro arr2 h; simp [appendScan] at h
  | cons x rest ih =>
    intro arr2 h y hy
    by_cases hx : x = target
    · simp only [appendScan, if_pos hx] at h
      rw [← Option.some_inj.mp h] at hy
      rcases List.mem_cons.mp hy with h0 | hr
      · exact Or.inr h0
      · exact Or.inl (List.mem_cons_of_mem x hr)
    · simp only [appendScan, if_neg hx] at h
      cases hs : appendScan target rest with
      | none => rw [hs] at h; cases h
      | some r =>
        rw [hs] at h
        rw [← Option.some_inj.mp h] at hy
        rcases List.mem_cons.mp hy with h0 | hr
        · exact Or.inl (h0 ▸ List.mem_cons_self x rest)
        · rcases ih r hs y hr with hin | hz
          · exact Or.inl (List.mem_cons_of_mem x hin)
          · exact Or.inr hz

theorem appendScan_countP (target : Nat) (ht : target ≠ 0) :
    ∀ (arr arr2 : List Nat), appendScan target arr = some arr2 →
      arr2.countP (fun x => decide (x ≠ 0)) <
        arr.countP (fun x => decide (x ≠ 0)) := by
  intro arr
  induction arr with
  | nil => intro arr2 h; simp [appendScan] at h
  | cons x rest ih =>
    intro arr2 h
    by_cases hx : x = target
    · simp only [appendScan, if_pos hx] at h
      have hx0 : x ≠ 0 := by rw [hx]; exact ht
      have hcount0 : List.countP (fun y => decide (y ≠ 0)) (0 :: rest) =
          List.countP (fun y => decide (y ≠ 0)) rest := by
        simp [List.countP_cons]
      have hcountx : List.countP (fun y => decide (y ≠ 0)) (x :: rest) =
          List.countP (fun y => decide (y ≠ 0)) rest + 1 := by
        simp [List.countP_cons, hx0]
      rw [← Option.some_inj.mp h, hcount0, hcountx]
      omega
    · simp only [appendScan, if_neg hx] at h
      cases hs : appendScan target rest with
      | none => rw [hs] at h; cases h
      | some r =>
        rw [hs] at h
        rw [← Option.some_inj.mp h]
        simp only [List.countP_cons]
        have := ih r hs
        omega

theorem appendScan_none_of_zero (target : Nat) (ht : target ≠ 0)
    (arr : List Nat)
    (h : arr.countP (fun x => decide (x ≠ 0)) = 0) :
    appendScan target arr = none := by
  cases hs : appendScan target arr with
  | none => rfl
  | some arr2 =>
    have hmem := appendScan_mem target arr arr2 hs
    have hpos : 0 < arr.countP (fun x => decide (x ≠ 0)) :=
      List.countP_pos_iff.mpr ⟨target, hmem, decide_eq_true ht⟩
    omega

theorem appendResolve_spec : ∀ (f : Nat) (st : AppendState),
    (st.rows ≤ (appendResolve f st).rows) ∧
    (∀ k, st.rows < k → k ≤ (appendResolve f st).rows → k ∈ st.append) ∧
    (st.append.countP (fun x => decide (x ≠ 0)) ≤ f →
      appendScan ((appendResolve f st).rows + 1)
        (appendResolve f st).append = none) := by
  intro f
  induction f with
  | zero =>
    intro st
    simp only [appendResolve]
    refine ⟨le_refl _, fun k h1 h2 => absurd h2 (by omega), fun hcnt => ?_⟩
    exact appendScan_none_of_zero (st.rows + 1) (by omega) st.append
      (Nat.le_zero.mp hcnt)
  | succ f ih =>
    intro st
    cases hs : appendScan (st.rows + 1) st.append with
    | none =>
      have hres : appendResolve (f + 1) st = st := by
        simp only [appendResolve]
        rw [hs]
      rw [hres]
      exact ⟨le_refl _, fun k h1 h2 => absurd h2 (by omega), fun _ => hs⟩
    | some arr2 =>
      have hres : appendResolve (f + 1) st =
          appendResolve f ⟨st.rows + 1, arr2, st.appendCnt - 1⟩ := by
        simp only [appendResolve]
        rw [hs]
      obtain ⟨ih1, ih2, ih3⟩ := ih ⟨st.rows + 1, arr2, st.appendCnt - 1⟩
      have ih1' : st.rows + 1 ≤
          (appendResolve f ⟨st.rows + 1, arr2, st.appendCnt - 1⟩).rows := ih1
      rw [hres]
      refine ⟨by omega, ?_, ?_⟩
      · intro k hk1 hk2
        by_cases hk : k ≤ st.rows + 1
        · have hkk : k = st.rows + 1 := by omega
          subst hkk
          exact appendScan_mem _ _ _ hs
        · have hk3 : st.rows + 1 < k := by omega
          have hmem2 : k ∈ arr2 := ih2 k hk3 hk2
          rcases appendScan_subset _ _ _ hs k hmem2 with hin | hzero
          · exact hin
          · omega
      · intro hcnt
        have hlt := appendScan_countP (st.rows + 1) (by omega)
          st.append arr2 hs
        have ih3' : arr2.countP (fun x => decide (x ≠ 0)) ≤ f →
            appendScan
              ((appendResolve f ⟨st.rows + 1, arr2, st.appendCnt - 1⟩).rows + 1)
              (appendResolve f ⟨st.rows + 1, arr2, st.appendCnt - 1⟩).append =
              none := ih3
        exact ih3' (by omega)

/-- C8: the global row count rows advances only when the thread owning key
rows + 1 resolves it; that thread's resolver sweep then rescans the table
absorbing each completed key rows + 1 in turn (at the end no entry rows + 1
remains), and rows never advances past a key whose insert is not recorded
(every value rows passes through is the resolving key or sat in the
reservation table). -/
theorem table_append_rows_invariant (st : AppendState) (keyno : Nat) :
    (keyno ≠ st.rows + 1 → (table_append st keyno).1.rows = st.rows) ∧
    (keyno = st.rows + 1 →
      (st.rows < (table_append st keyno).1.rows ∧
       (∀ k, st.rows < k → k ≤ (table_append st keyno).1.rows →
         (k = keyno ∨ k ∈ st.append)) ∧
       appendScan ((table_append st keyno).1.rows + 1)
         (table_append st keyno).1.append = none)) := by
  constructor
  · intro hne
    unfold table_append
    rw [if_neg hne]
    cases hp : appendPlace keyno st.append with
    | some arr => rfl
    | none => rfl
  · intro heq
    have hres : (table_append st keyno).1 =
        appendResolve st.append.length { st with rows := keyno } := by
      unfold table_append
      rw [if_pos heq]
    rw [hres]
    obtain ⟨h1, h2, h3⟩ :=
      appendResolve_spec st.append.length { st with rows := keyno }
    have h1' : keyno ≤
        (appendResolve st.append.length { st with rows := keyno }).rows := h1
    have h2' : ∀ k, keyno < k →
        k ≤ (appendResolve st.append.length { st with rows := keyno }).rows →
        k ∈ st.append := h2
    have h3' : st.append.countP (fun x => decide (x ≠ 0)) ≤
          st.append.length →
        appendScan
          ((appendResolve st.append.length { st with rows := keyno }).rows + 1)
          (appendResolve st.append.length { st with rows := keyno }).append =
          none := h3
    refine ⟨by omega, ?_, ?_⟩
    · intro k hk1 hk2
      by_cases hk : k ≤ keyno
      · left
        omega
      · right
        exact h2' k (by omega) hk2
    · exact h3' (List.countP_le_length _)

/-- C8 witness: with rows = 100 and completed appends 103 and 102 waiting in
the table, the owner of key 101 advances rows (all the way to 103 in one
sweep, per the theorem's other conclusions). -/
theorem table_append_rows_invariant_witness :
    100 < (table_append ⟨100, [103, 102, 0], 2⟩ 101).1.rows :=
  ((table_append_rows_invariant ⟨100, [103, 102, 0], 2⟩ 101).2 rfl).1

/-- mmrand(min, max) driven by an explicit stream of raw draws (the model
of the per-thread RNG): consume one value, mapped into [lo, hi]; an empty
stream reads as lo. -/
def mmrand (lo hi : Nat) : List Nat → Nat × List Nat
  | [] => (lo, [])
  | x :: rest => (lo + x % (hi + 1 - lo), rest)

/-- Result of one cursor call in the driver model. -/
inductive CurRes where
  | ok
  | notfound
  | rollback
deriving DecidableEq, Repr

/-- Observable driver events in one worker-iteration tail. -/
inductive OpEvent where
  | step : Bool → OpEvent
  | verify : Nat → OpEvent
  | deadlock : OpEvent
deriving DecidableEq, Repr

/-- True exactly on next/prev step events. -/
def isStepEv : OpEvent → Bool
  | OpEvent.step _ => true
  | _ => false

/-- Result bundle of the next/prev loop. -/
structure LoopOut where
  evs : List OpEvent
  rnd : List Nat
  positioned : Bool
  deadlocked : Bool
deriving DecidableEq, Repr

/-- The next/prev loop of the worker iteration (ops, lines 490-499):
for (np = 0; np < mmrand(1, 100); ++np) - the bound is re-drawn from the
stream on every iteration - break when the cursor lost its position, jump
to the deadlock label on a rollback inside a transaction.  fuel bounds the
recursion; the caller passes 101, enough because every draw is at most 100
so the loop condition fails no later than np = 100. -/
def nextprevLoop (stepRes : Nat → CurRes) (dir : Bool) (intxn : Bool) :
    Nat → Nat → List Nat → Bool → LoopOut
  | 0, _, rnd, pos => ⟨[], rnd, pos, false⟩
  | f + 1, np, rnd, pos =>
    let b := mmrand 1 100 rnd
    if np < b.1 then
      if !pos then ⟨[], b.2, pos, false⟩
      else
        let r := stepRes np
        if (r == CurRes.rollback) && intxn then
          ⟨[OpEvent.step dir], b.2, false, true⟩
        else
          let rest := nextprevLoop stepRes dir intxn f (np + 1) b.2
            (r == CurRes.ok)
          ⟨OpEvent.step dir :: rest.evs, rest.rnd, rest.positioned,
            rest.deadlocked⟩
    else ⟨[], b.2, pos, false⟩

/-- The worker-iteration tail after the drawn operation (ops, lines
490-506): draw a direction once, run the next/prev loop from the cursor as
the operation left it, then re-read the same key to confirm the operation
(skipped only when the loop jumped to the deadlock label). -/
def opsTailCode (stepRes : Nat → CurRes) (intxn : Bool) (rnd : List Nat)
    (positioned : Bool) (keyno : Nat) : List OpEvent :=
  let d := mmrand 0 1 rnd
  let l := nextprevLoop stepRes (d.1 == 1) intxn 101 0 d.2 positioned
  if l.deadlocked then l.evs ++ [OpEvent.deadlock]
  else l.evs ++ [OpEvent.verify keyno]

/-- Modelled from the claim's words, for comparison only: first verify by
re-reading the same key, then draw the number of steps once, uniformly in
[1, 100], and take that many steps in one direction, stopping early only
when the position is lost. -/
def opsTailClaimSteps (stepRes : Nat → CurRes) (dir : Bool) :
    Nat → Nat → Bool → List OpEvent
  | 0, _, _ => []
  | k + 1, np, pos =>
    if !pos then []
    else OpEvent.step dir ::
      opsTailClaimSteps stepRes dir k (np + 1) (stepRes np == CurRes.ok)

/-- Modelled from the claim's words, for comparison only (see
opsTailClaimSteps). -/
def opsTailClaim (stepRes : Nat → CurRes) (rnd : List Nat)
    (positioned : Bool) (keyno : Nat) : List OpEvent :=
  let d := mmrand 0 1 rnd
  let n := mmrand 1 100 d.2
  OpEvent.verify keyno ::
    opsTailClaimSteps stepRes (d.1 == 1) n.1 0 positioned

theorem mmrand_le (s : List Nat) : 1 ≤ (mmrand 1 100 s).1 ∧
    (mmrand 1 100 s).1 ≤ 100 := by
  cases s with
  | nil => exact ⟨by simp [mmrand], by norm_num [mmrand]⟩
  | cons x rest =>
    have : x % 100 < 100 := Nat.mod_lt x (by omega)
    exact ⟨by simp [mmrand], by simp [mmrand]; omega⟩

theorem nextprevLoop_count_le (stepRes : Nat → CurRes) (dir : Bool)
    (intxn : Bool) : ∀ (f np : Nat) (rnd : List Nat) (pos : Bool),
    (nextprevLoop stepRes dir intxn f np rnd pos).evs.countP isStepEv ≤
      100 - np := by
  intro f
  induction f with
  | zero => intro np rnd pos; simp [nextprevLoop]
  | succ f ih =>
    intro np rnd pos
    simp only [nextprevLoop]
    obtain ⟨hb1, hb2⟩ := mmrand_le rnd
    split
    · rename_i hlt
      have hnp : np ≤ 99 := by omega
      split
      · simp
      · split
        · simp [isStepEv]
          omega
        · have := ih (np + 1) (mmrand 1 100 rnd).2
            (stepRes np == CurRes.ok)
          simp [List.countP_cons, isStepEv]
          omega
    · simp

theorem nextprevLoop_dir (stepRes : Nat → CurRes) (dir : Bool)
    (intxn : Bool) : ∀ (f np : Nat) (rnd : List Nat) (pos : Bool),
    ∀ e ∈ (nextprevLoop stepRes dir intxn f np rnd pos).evs,
      e = OpEvent.step dir := by
  intro f
  induction f with
  | zero => intro np rnd pos e he; simp [nextprevLoop] at he
  | succ f ih =>
    intro np rnd pos e he
    simp only [nextprevLoop] at he
    split at he
    · split at he
      · simp at he
      · split at he
        · simp at he
          exact he
        · simp only [List.mem_cons] at he
          rcases he with h1 | h2
          · exact h1
          · exact ih (np + 1) _ _ e h2
    · simp at he

theorem nextprevLoop_unpositioned (stepRes : Nat → CurRes) (dir : Bool)
    (intxn : Bool) (f np : Nat) (rnd : List Nat) :
    (nextprevLoop stepRes dir intxn f np rnd false).evs = [] := by
  cases f with
  | zero => rfl
  | succ f =>
    simp only [nextprevLoop]
    split
    · rfl
    · rfl

theorem nextprevLoop_nodeadlock (stepRes : Nat → CurRes) (dir : Bool)
    (intxn : Bool) (hok : ∀ n, stepRes n = CurRes.ok) :
    ∀ (f np : Nat) (rnd : List Nat) (pos : Bool),
    (nextprevLoop stepRes dir intxn f np rnd pos).deadlocked = false := by
  intro f
  induction f with
  | zero => intro np rnd pos; rfl
  | succ f ih =>
    intro np rnd pos
    simp only [nextprevLoop]
    split
    · split
      · rfl
      · have hthis := ih (np + 1) (mmrand 1 100 rnd).2 true
        simp [hok, hthis]
    · rfl

theorem nextprevLoop_count_pos (stepRes : Nat → CurRes) (dir : Bool)
    (intxn : Bool) (f : Nat) (rnd : List Nat) :
    1 ≤ (nextprevLoop stepRes dir intxn (f + 1) 0 rnd true).evs.countP
      isStepEv := by
  simp only [nextprevLoop]
  obtain ⟨hb1, _⟩ := mmrand_le rnd
  rw [if_pos (show 0 < (mmrand 1 100 rnd).1 by omega),
    if_neg (by simp : ¬ ((!true) = true))]
  split
  · simp [List.countP_cons, isStepEv]
  · simp [List.countP_cons, isStepEv]

theorem nextprevLoop_stop_early (stepRes : Nat → CurRes) (dir : Bool)
    (intxn : Bool) (j : Nat) (hj : stepRes j ≠ CurRes.ok) :
    ∀ (f np : Nat) (rnd : List Nat), np ≤ j →
      (nextprevLoop stepRes dir intxn f np rnd true).evs.countP isStepEv ≤
        j + 1 - np := by
  intro f
  induction f with
  | zero => intro np rnd hnp; simp [nextprevLoop]
  | succ f ih =>
    intro np rnd hnp
    simp only [nextprevLoop]
    split
    · rw [if_neg (by simp : ¬ ((!true) = true))]
      split
      · simp [List.countP_cons, isStepEv]
        omega
      · by_cases hnpj : np = j
        · have hpos : (stepRes np == CurRes.ok) = false := by
            rw [hnpj]
            exact beq_eq_false_iff_ne.mpr hj
          rw [hpos, nextprevLoop_unpositioned stepRes dir intxn f (np + 1)
            (mmrand 1 100 rnd).2]
          simp [List.countP_cons, isStepEv]
          omega
        · have hltj : np < j := by omega
          cases hpos : (stepRes np == CurRes.ok) with
          | false =>
            rw [nextprevLoop_unpositioned stepRes dir intxn f (np + 1)
              (mmrand 1 100 rnd).2]
            simp [List.countP_cons, isStepEv]
            omega
          | true =>
            have hih := ih (np + 1) (mmrand 1 100 rnd).2 (by omega)
            simp [List.countP_cons, isStepEv]
            omega
    · simp

/-- C9 amended: after the drawn operation the worker first performs the
next/prev steps, starting from the cursor as the operation positioned it
and all in one direction drawn once; the loop re-draws its bound uniformly
from [1, 100] on every iteration and keeps stepping while the step count is
below the fresh draw, so at most 100 steps happen, at least 1 when the
cursor starts positioned and none otherwise, and at most j + 1 when step j
loses the position; the verifying re-read of the same key comes after the
steps (when no transaction deadlock fired). -/
theorem ops_nextprev_amended (stepRes : Nat → CurRes) (intxn : Bool)
    (rnd : List Nat) (positioned : Bool) (keyno : Nat) :
    ((opsTailCode stepRes intxn rnd positioned keyno).countP isStepEv ≤
      100) ∧
    (positioned = true →
      1 ≤ (opsTailCode stepRes intxn rnd positioned keyno).countP
        isStepEv) ∧
    (positioned = false →
      (opsTailCode stepRes intxn rnd positioned keyno).countP
        isStepEv = 0) ∧
    (∀ b, OpEvent.step b ∈ opsTailCode stepRes intxn rnd positioned keyno →
      b = ((mmrand 0 1 rnd).1 == 1)) ∧
    ((∀ n, stepRes n = CurRes.ok) →
      (opsTailCode stepRes intxn rnd positioned keyno).getLast? =
        some (OpEvent.verify keyno)) ∧
    (∀ j, stepRes j ≠ CurRes.ok → positioned = true →
      (opsTailCode stepRes intxn rnd positioned keyno).countP isStepEv ≤
        j + 1) := by
  have hsplit : ∀ x : OpEvent, isStepEv x = false →
      ∀ l : List OpEvent, (l ++ [x]).countP isStepEv =
        l.countP isStepEv := by
    intro x hx l
    simp [List.countP_append, hx]
  have hgenCount : ∀ L : LoopOut,
      (if L.deadlocked then L.evs ++ [OpEvent.deadlock]
        else L.evs ++ [OpEvent.verify keyno]).countP isStepEv =
      L.evs.countP isStepEv := by
    intro L
    split
    · exact hsplit OpEvent.deadlock rfl _
    · exact hsplit (OpEvent.verify keyno) rfl _
  have hgenMem : ∀ (L : LoopOut) (b : Bool),
      OpEvent.step b ∈ (if L.deadlocked then L.evs ++ [OpEvent.deadlock]
        else L.evs ++ [OpEvent.verify keyno]) →
      OpEvent.step b ∈ L.evs := by
    intro L b hb
    revert hb
    split
    · intro hb
      rcases List.mem_append.mp hb with h1 | h2
      · exact h1
      · simp at h2
    · intro hb
      rcases List.mem_append.mp hb with h1 | h2
      · exact h1
      · simp at h2
  have hgenLast : ∀ L : LoopOut, L.deadlocked = false →
      (if L.deadlocked then L.evs ++ [OpEvent.deadlock]
        else L.evs ++ [OpEvent.verify keyno]).getLast? =
      some (OpEvent.verify keyno) := by
    intro L hL
    rw [hL]
    simp only [Bool.false_eq_true, if_false]
    exact List.getLast?_concat _
  have hcount : (opsTailCode stepRes intxn rnd positioned keyno).countP
      isStepEv =
      (nextprevLoop stepRes ((mmrand 0 1 rnd).1 == 1) intxn 101 0
        (mmrand 0 1 rnd).2 positioned).evs.countP isStepEv :=
    hgenCount (nextprevLoop stepRes ((mmrand 0 1 rnd).1 == 1) intxn 101 0
      (mmrand 0 1 rnd).2 positioned)
  refine ⟨?_, ?_, ?_, ?_, ?_, ?_⟩
  · rw [hcount]
    have := nextprevLoop_count_le stepRes ((mmrand 0 1 rnd).1 == 1) intxn
      101 0 (mmrand 0 1 rnd).2 positioned
    omega
  · intro hpos
    subst hpos
    rw [hcount]
    exact nextprevLoop_count_pos stepRes ((mmrand 0 1 rnd).1 == 1) intxn
      100 (mmrand 0 1 rnd).2
  · intro hpos
    subst hpos
    rw [hcount, nextprevLoop_unpositioned]
    rfl
  · intro b hb
    have hb2 : OpEvent.step b ∈
        (nextprevLoop stepRes ((mmrand 0 1 rnd).1 == 1) intxn 101 0
          (mmrand 0 1 rnd).2 positioned).evs :=
      hgenMem (nextprevLoop stepRes ((mmrand 0 1 rnd).1 == 1) intxn 101 0
        (mmrand 0 1 rnd).2 positioned) b hb
    have := nextprevLoop_dir stepRes ((mmrand 0 1 rnd).1 == 1) intxn 101 0
      (mmrand 0 1 rnd).2 positioned (OpEvent.step b) hb2
    injection this
  · intro hok
    exact hgenLast (nextprevLoop stepRes ((mmrand 0 1 rnd).1 == 1) intxn
        101 0 (mmrand 0 1 rnd).2 positioned)
      (nextprevLoop_nodeadlock stepRes ((mmrand 0 1 rnd).1 == 1) intxn hok
        101 0 (mmrand 0 1 rnd).2 positioned)
  · intro j hj hpos
    subst hpos
    rw [hcount]
    have := nextprevLoop_stop_early stepRes ((mmrand 0 1 rnd).1 == 1) intxn
      j hj 101 0 (mmrand 0 1 rnd).2 (Nat.zero_le j)
    omega

/-- C9 counterexample: on the concrete draw stream [1, 4, 0] (the direction
draw, then the per-iteration bound draws) with every cursor step keeping
its position, the code takes its steps before the verifying read and takes
exactly one step (the bound is re-drawn each iteration and the second draw
is 1), while the claim as written predicts the verify first and five steps
from a single uniform draw. -/
theorem ops_nextprev_claim_cex :
    opsTailCode (fun _ => CurRes.ok) false [1, 4, 0] true 7 ≠
      opsTailClaim (fun _ => CurRes.ok) [1, 4, 0] true 7 := by
  decide

/-- C9 witness for the amended claim: on the same stream the last event is
the verifying read of the key. -/
theorem ops_nextprev_amended_witness :
    (opsTailCode (fun _ => CurRes.ok) false [1, 4, 0] true 7).getLast? =
      some (OpEvent.verify 7) :=
  (ops_nextprev_amended (fun _ => CurRes.ok) false [1, 4, 0] true
    7).2.2.2.2.1 (fun _ => rfl)

/-- Result of a cursor search_near in the driver model: positioned with the
exact indicator, not found, or rollback. -/
inductive SNRes where
  | positioned : Int → SNRes
  | notfound
  | rollback
deriving DecidableEq, Repr

/-- read_row, the part that decides found / not-found: sn is the
function-static toggle shared by every caller (returned as the second
component so calls can be chained), search and snear the cursor's search
and search_near.  When the toggle selects search_near, a success that is a
non-exact match (exact different from 0) is turned into not-found.  In
fixed-length stores (isFix) a not-found read is rewritten to a zero value,
hence reported found. -/
def read_row (isFix : Bool) (search : Nat → CurRes) (snear : Nat → SNRes)
    (sn : Bool) (keyno : Nat) : CurRes × Bool :=
  let pr : CurRes × Bool :=
    if sn then
      (match snear keyno with
       | SNRes.positioned ex =>
           if ex ≠ 0 then CurRes.notfound else CurRes.ok
       | SNRes.notfound => CurRes.notfound
       | SNRes.rollback => CurRes.rollback,
       false)
    else (search keyno, true)
  match pr.1 with
  | CurRes.rollback => (CurRes.rollback, pr.2)
  | CurRes.notfound =>
      (if isFix then CurRes.ok else CurRes.notfound, pr.2)
  | CurRes.ok => (CurRes.ok, pr.2)

/-- C10: successive read_row calls alternate between search and search_near
through the shared toggle, which every call flips; a search_near success
with a non-exact match is treated as not-found; and, given the cursor
contract that a present key is found exactly by both calls, a row-store
verification read reports not-found only when the key has no exact match. -/
theorem read_row_toggle_notfound (search : Nat → CurRes)
    (snear : Nat → SNRes) (present : Nat → Bool) (sn : Bool) (keyno : Nat)
    (hsearch : present keyno = true → search keyno = CurRes.ok)
    (hsnear : present keyno = true → snear keyno = SNRes.positioned 0) :
    ((read_row false search snear sn keyno).2 = !sn ∧
     (read_row true search snear sn keyno).2 = !sn) ∧
    (∀ ex, sn = true → snear keyno = SNRes.positioned ex → ex ≠ 0 →
      (read_row false search snear sn keyno).1 = CurRes.notfound) ∧
    ((read_row false search snear sn keyno).1 = CurRes.notfound →
      present keyno = false) := by
  have htoggle : ∀ isFix : Bool,
      (read_row isFix search snear sn keyno).2 = !sn := by
    intro isFix
    cases sn with
    | false =>
      cases hs : search keyno <;> simp [read_row, hs]
    | true =>
      cases hn : snear keyno with
      | positioned ex =>
        by_cases hex : ex ≠ 0
        · simp [read_row, hn, hex]
        · simp [read_row, hn, hex]
      | notfound => simp [read_row, hn]
      | rollback => simp [read_row, hn]
  refine ⟨⟨htoggle false, htoggle true⟩, ?_, ?_⟩
  · intro ex hsn hn hex
    subst hsn
    simp [read_row, hn, hex]
  · intro h
    cases hpv : present keyno with
    | false => rfl
    | true =>
      exfalso
      have hs := hsearch hpv
      have hn := hsnear hpv
      cases sn with
      | false => simp [read_row, hs] at h
      | true => simp [read_row, hn] at h

/-- C10 witness: with the toggle on search_near and a neighbor (non-exact)
match for the absent key 3, the verification read reports not-found. -/
theorem read_row_toggle_notfound_witness :
    (read_row false (fun _ => CurRes.notfound)
      (fun _ => SNRes.positioned 1) true 3).1 = CurRes.notfound :=
  ((read_row_toggle_notfound (fun _ => CurRes.notfound)
      (fun _ => SNRes.positioned 1) (fun _ => false) true 3
      (fun h => nomatch h) (fun h => nomatch h)).2.1) 1 rfl rfl
    (by decide)
